import Mathlib

set_option maxHeartbeats 1000000

/- Verification development for the Obsidian vault organizer
   (format-anthropic.py).  The program's data model and operations are
   shallowly embedded below: paths are lists of POSIX segments, the
   on-disk vault is a rose tree, the mutating stages are pure state
   transformers that additionally emit an event trace. -/

/-! ## String primitives (restated over the character data, where they
compute by unfolding) -/

/-- `s.startswith(p)`. -/
def strStartsWith (s p : String) : Bool := p.data.isPrefixOf s.data

/-- `s.endswith(p)`. -/
def strEndsWith (s p : String) : Bool := List.isSuffixOf p.data s.data

/-- ASCII lowering of one character (the only case the confirmation
tokens exercise). -/
def lowerChar (c : Char) : Char :=
  if 'A' ≤ c ∧ c ≤ 'Z' then Char.ofNat (c.toNat + 32) else c

/-- `s.lower()`. -/
def strToLower (s : String) : String := ⟨s.data.map lowerChar⟩

/-- Splitting of a character list at every occurrence of `sep`,
as `str.split(sep)`: the empty input yields one empty chunk. -/
def splitChars (sep : Char) : List Char → List (List Char)
  | [] => [[]]
  | c :: cs =>
    let r := splitChars sep cs
    if c = sep then [] :: r
    else
      match r with
      | [] => [[c]]
      | h :: t => (c :: h) :: t

/-! ## Path model (Python pathlib semantics for POSIX paths) -/

/-- Name is hidden in the source's sense: it starts with a dot
(`d.startswith('.')` / `file.startswith('.')`). -/
def hiddenName (s : String) : Bool := strStartsWith s "."

/-- Parts of a path string, following Python `pathlib.PurePosixPath.parts`:
an absolute path contributes a leading "/" part, empty and "." components
vanish.  Two `Path` objects are equal exactly when their parts coincide. -/
def pathParts (s : String) : List String :=
  (if strStartsWith s "/" then ["/"] else [])
    ++ ((splitChars '/' s.data).map String.mk).filter (fun c => c != "" && c != ".")

/-- Joining of paths as `Path.__truediv__`: an absolute right operand
replaces the left one. -/
def joinParts (a b : List String) : List String :=
  if b.head? = some "/" then b else a ++ b

/-- Parts of `Path(s).parent`. -/
def parentParts (s : String) : List String := (pathParts s).dropLast

/-- `Path(s).name`: the final component, empty for `.` and `/`. -/
def lastName (s : String) : String :=
  match (pathParts s).getLast? with
  | some x => if x = "/" then "" else x
  | none => ""

/-- Rendering of a relative segment list back to the string the program
stores (`str(relative_path)`): `.` for the empty path. -/
def strOfRel (l : List String) : String :=
  if l.isEmpty then "." else String.intercalate "/" l

/-- Every segment of the path is non-hidden; `cleanup_empty_dirs` skips a
directory when `any(part.startswith('.') for part in Path(root).parts)`. -/
def visiblePath (l : List String) : Bool := l.all (fun s => !hiddenName s)

/-! ## The on-disk vault as a rose tree -/

mutual
/-- A directory: named subdirectories and files `(name, byte size)`. -/
inductive FSTree where
  | node (dirs : FSList) (files : List (String × Nat)) : FSTree
/-- A listing of named subdirectories. -/
inductive FSList where
  | nil : FSList
  | cons (name : String) (tree : FSTree) (rest : FSList) : FSList
end

/-- Membership of a named subtree in a directory listing. -/
inductive FSList.Mem : String → FSTree → FSList → Prop where
  | head (d : String) (t : FSTree) (rest : FSList) : FSList.Mem d t (.cons d t rest)
  | tail (d' : String) (t' : FSTree) (d : String) (t : FSTree) (rest : FSList) :
      FSList.Mem d t rest → FSList.Mem d t (.cons d' t' rest)

/-- A directory with no subdirectories and no files
(`not dirs and not files` on the walk snapshot). -/
def emptyTree : FSTree → Bool
  | .node .nil files => files.isEmpty
  | .node (.cons _ _ _) _ => false

/-! ## Indexer (`index_vault`) -/

/-- One entry of `self.file_index`, exactly the dictionary built at
lines 46-51 of the source. -/
structure FileRecord where
  filename : String
  current_folder : String
  full_relative_path : String
  size : Nat
deriving DecidableEq, Repr

/-- The record the indexer builds for a file `name` of byte size `size`
found at relative directory `rel`. -/
def mkRecord (x : List String × String × Nat) : FileRecord :=
  { filename := x.2.1
    current_folder := strOfRel x.1
    full_relative_path := strOfRel (x.1 ++ [x.2.1])
    size := x.2.2 }

mutual
/-- `index_vault`: `os.walk` from the vault root, pruning hidden
directories (`dirs[:] = [d for d in dirs if not d.startswith('.')]`),
skipping hidden and non-`.md` files, and recording the remaining files. -/
def index_walk (rel : List String) : FSTree → List FileRecord
  | .node ds files =>
      files.filterMap (fun f =>
        if hiddenName f.1 || !strEndsWith f.1 ".md" then none
        else some (mkRecord (rel, f.1, f.2)))
      ++ index_walkList rel ds
/-- Walk of the pruned subdirectory listing, in listing order. -/
def index_walkList (rel : List String) : FSList → List FileRecord
  | .nil => []
  | .cons d t rest =>
      (if hiddenName d then [] else index_walk (rel ++ [d]) t)
      ++ index_walkList rel rest
end

mutual
/-- The raw (directory, filename, size) triples the indexer visits, before
they are packed into string-valued records. -/
def noteFiles (pre : List String) : FSTree → List (List String × String × Nat)
  | .node ds files =>
      files.filterMap (fun f =>
        if hiddenName f.1 || !strEndsWith f.1 ".md" then none
        else some (pre, f.1, f.2))
      ++ noteFilesList pre ds
/-- Triples contributed by a subdirectory listing. -/
def noteFilesList (pre : List String) : FSList → List (List String × String × Nat)
  | .nil => []
  | .cons d t rest =>
      (if hiddenName d then [] else noteFiles (pre ++ [d]) t)
      ++ noteFilesList pre rest
end

/-- A note file visible to the indexer: reached from the root through
non-hidden directories, itself non-hidden and carrying the `.md`
extension. -/
inductive VisibleNote : FSTree → List String → String → Nat → Prop where
  | here (ds : FSList) (files : List (String × Nat)) (name : String) (size : Nat) :
      (name, size) ∈ files → hiddenName name = false → strEndsWith name ".md" = true →
      VisibleNote (.node ds files) [] name size
  | there (ds : FSList) (files : List (String × Nat)) (d : String) (t : FSTree)
      (rel : List String) (name : String) (size : Nat) :
      FSList.Mem d t ds → hiddenName d = false → VisibleNote t rel name size →
      VisibleNote (.node ds files) (d :: rel) name size

/-- Names of the subdirectories of a listing. -/
def dirNames : FSList → List String
  | .nil => []
  | .cons d _ rest => d :: dirNames rest

mutual
/-- Well-formed directory tree: within each directory the file names and
the subdirectory names are duplicate-free (true of any real filesystem). -/
def WFtree : FSTree → Bool
  | .node ds files =>
      decide (files.map Prod.fst).Nodup && decide (dirNames ds).Nodup && WFlist ds
/-- Well-formedness of every subtree of a listing. -/
def WFlist : FSList → Bool
  | .nil => true
  | .cons _ t rest => WFtree t && WFlist rest
end

/-! ## Organization plan and report -/

/-- The `organization_plan` mapping of the decoded reply: ordered pairs
`(current file path, target folder)`; a Python dict has unique keys, the
list generalizes it. -/
abbrev Plan := List (String × String)

/-- Dictionary lookup `organization_plan[current_path]` guarded by
`current_path in organization_plan`: the first binding of the key. -/
def lookupPlan (plan : Plan) (k : String) : Option String :=
  (plan.find? (fun kv => kv.1 == k)).map (·.2)

/-- The plan entries for which `save_organization_report` emits a
File Movements line: `Path(current).parent != Path(new)`. -/
def movementPairs (plan : Plan) : List (String × String) :=
  plan.filter (fun cn => parentParts cn.1 != pathParts cn.2)

/-- The exact text of one File Movements line
(`f"- \x60{current}\x60 → \x60{new}/{Path(current).name}\x60\n"`). -/
def renderMove (c n : String) : String :=
  "- `" ++ c ++ "` → `" ++ n ++ "/" ++ lastName c ++ "`\n"

/-- The File Movements section of the report, one rendered line per
retained plan entry, in plan order. -/
def movementLines (plan : Plan) : List String :=
  (movementPairs plan).map (fun cn => renderMove cn.1 cn.2)

/-! ## Flat filesystem state and the reorganizer -/

/-- Flat view of the filesystem during reorganization: the absolute
segment paths of the existing files and directories. -/
structure VaultFS where
  files : List (List String)
  dirs : List (List String)
deriving DecidableEq, Repr

/-- Observable filesystem actions of a run, in program order. -/
inductive Event where
  | serviceCall : Event
  | backupCopy : Event
  | mkdirp (p : List String) : Event
  | move (src dst : List String) : Event
  | moveError (src : List String) : Event
  | rmdir (p : List String) : Event
  | writeReport (lines : List String) : Event
deriving DecidableEq, Repr

/-- All non-empty prefixes of a segment path: the directories that
`mkdir(parents=True, exist_ok=True)` ensures exist. -/
def prefixesOf (d : List String) : List (List String) :=
  (List.range d.length).map (fun i => d.take (i + 1))

/-- `shutil.move(src, dst)` on the flat state, for `src` an existing
file: when `dst` names an existing directory the file lands inside it
under its own base name (an existing file there, or a plain `dst` file,
is overwritten by `os.rename`); moving onto an existing directory fails.
Returns the new state and the real destination, `none` on failure. -/
def doMove (fs : VaultFS) (src dst : List String) : Option (VaultFS × List String) :=
  if src ∈ fs.files then
    let real := if dst ∈ fs.dirs then dst ++ (src.getLast?.toList) else dst
    if real ∈ fs.dirs then none
    else some ({ fs with files := real :: fs.files.filter (· ≠ src) }, real)
  else none

/-- One iteration of the move loop of `reorganize_vault` (lines 154-174):
look the record's path up in the plan, build
`new_path = Path(new_folder) / filename`, and when the absolute source
and destination differ ensure the destination's parent exists and move,
catching per-file errors.  `pfx` is the absolute vault path.  The model
assumes the plan supplies relative folder strings, as the prompt
requests; an absolute folder would escape the vault in the same way
`Path.__truediv__` does via `joinParts`. -/
def processRecord (pfx : List String) (plan : Plan) (acc : VaultFS × List Event)
    (r : FileRecord) : VaultFS × List Event :=
  match lookupPlan plan r.full_relative_path with
  | none => acc
  | some folder =>
    let src := joinParts pfx (pathParts r.full_relative_path)
    let dst := joinParts pfx (joinParts (pathParts folder) (pathParts r.filename))
    if src = dst then acc
    else
      let fs1 : VaultFS := { acc.1 with dirs := prefixesOf dst.dropLast ++ acc.1.dirs }
      let ev1 := acc.2 ++ [Event.mkdirp dst.dropLast]
      match doMove fs1 src dst with
      | some (fs2, real) => (fs2, ev1 ++ [Event.move src real])
      | none => (fs1, ev1 ++ [Event.moveError src])

/-- `cleanup_empty_dirs`: the bottom-up `os.walk(topdown=False)` sweep.
Each visited directory's listing is the snapshot taken before its
children were processed, so a directory is removed exactly when it lies
in the vault subtree, had no files and no subdirectories in the
post-move state, and no part of its absolute path is hidden; removals
during the sweep never feed back into a parent's decision. -/
def cleanupFlat (pfx : List String) (fs : VaultFS) : VaultFS × List Event :=
  let removable := fun d =>
    pfx.isPrefixOf d && fs.files.all (fun f => !(d.isPrefixOf f && d ≠ f))
      && fs.dirs.all (fun q => !(d.isPrefixOf q && d ≠ q))
      && visiblePath d
  ({ files := fs.files, dirs := fs.dirs.filter (fun d => !removable d) },
   (fs.dirs.filter removable).map Event.rmdir)

/-- Absolute path of `_organization_report.md` in the vault root. -/
def reportPath (pfx : List String) : List String := pfx ++ ["_organization_report.md"]

/-- `reorganize_vault` (lines 131-182): create the distinct target
directories of the plan (skipping `.`), run the move loop over the file
index, sweep empty directories, and write the report file into the vault
root. -/
def reorganize_vault (pfx : List String) (index : List FileRecord) (plan : Plan)
    (fs : VaultFS) : VaultFS × List Event :=
  let newDirs := ((plan.map (fun cn => pathParts cn.2)).filter (· ≠ [])).dedup
  let fs1 : VaultFS :=
    { fs with dirs := (newDirs.map (fun d => prefixesOf (joinParts pfx d))).flatten ++ fs.dirs }
  let ev1 := newDirs.map (fun d => Event.mkdirp (joinParts pfx d))
  let moved := index.foldl (processRecord pfx plan) (fs1, [])
  let cleaned := cleanupFlat pfx moved.1
  ({ cleaned.1 with files := reportPath pfx :: cleaned.1.files },
   ev1 ++ moved.2 ++ cleaned.2 ++ [Event.writeReport (movementLines plan)])

/-! ## Tree-level view of the cleanup sweep (`cleanup_empty_dirs`) -/

mutual
/-- The effect of `cleanup_empty_dirs` on the vault subtree rooted below
`pfx`: since `os.walk(topdown=False)` hands every directory the listing
snapshot taken before its children were processed, a subdirectory is
dropped exactly when it was empty in the input tree and its absolute
path has no hidden part; otherwise it is kept and swept recursively. -/
def sweepTree (pfx : List String) : FSTree → FSTree
  | .node ds files => .node (sweepList pfx ds) files
/-- Sweep of one directory listing. -/
def sweepList (pfx : List String) : FSList → FSList
  | .nil => .nil
  | .cons d t rest =>
      if emptyTree t && visiblePath (pfx ++ [d]) then sweepList pfx rest
      else .cons d (sweepTree (pfx ++ [d]) t) (sweepList pfx rest)
end

mutual
/-- All directories of a tree: relative segment path and subtree. -/
def dirsOf : FSTree → List (List String × FSTree)
  | .node ds _ => dirsOfList ds
/-- Directories contributed by a listing. -/
def dirsOfList : FSList → List (List String × FSTree)
  | .nil => []
  | .cons d t rest =>
      ([d], t) :: ((dirsOf t).map (fun p => (d :: p.1, p.2)) ++ dirsOfList rest)
end

/-! ## Backup stage (`create_backup`) -/

/-- The names `shutil.ignore_patterns('.obsidian', '.git')` filters out
of every directory listing during the backup copy. -/
def ignoredName (s : String) : Bool := s == ".obsidian" || s == ".git"

mutual
/-- The tree `shutil.copytree` writes at the backup location: every
entry named `.obsidian` or `.git` is dropped, at every level, files and
directories alike; everything else is copied. -/
def backupTree : FSTree → FSTree
  | .node ds files => .node (backupList ds) (files.filter (fun f => !ignoredName f.1))
/-- Backup copy of a directory listing. -/
def backupList : FSList → FSList
  | .nil => .nil
  | .cons d t rest =>
      if ignoredName d then backupList rest
      else .cons d (backupTree t) (backupList rest)
end

mutual
/-- Relative segment paths of all entries (directories and files) of a
tree. -/
def treePaths : FSTree → List (List String)
  | .node ds files => files.map (fun f => [f.1]) ++ pathsList ds
/-- Paths contributed by a directory listing. -/
def pathsList : FSList → List (List String)
  | .nil => []
  | .cons d t rest => [d] :: ((treePaths t).map (d :: ·) ++ pathsList rest)
end

/-- The vault's own location: its parent directory and its final name. -/
structure VaultPath where
  parent : List String
  name : String
deriving DecidableEq, Repr

/-- The directory `create_backup` copies into:
`self.vault_path.parent / f"obsidian_vault_backup_{timestamp}"`
(line 125 of the source); the vault's own name does not occur in it. -/
def create_backup_path (v : VaultPath) (ts : String) : List String :=
  v.parent ++ ["obsidian_vault_backup_" ++ ts]

/-- `create_backup`: the destination path together with the copied tree. -/
def create_backup (v : VaultPath) (t : FSTree) (ts : String) : List String × FSTree :=
  (create_backup_path v ts, backupTree t)

/-! ## Planner client: JSON extraction and decoding -/

/-- Suffix of the character list starting at its first `{`, the start of
the `re.search(r'\x7b.*\x7d', text, re.DOTALL)` match. -/
def firstBrace : List Char → Option (List Char)
  | [] => none
  | c :: cs => if c = '{' then some (c :: cs) else firstBrace cs

/-- Suffix of the character list starting at its first `}` (used on the
reversed input to locate the greedy match's last `}`). -/
def dropToClose : List Char → Option (List Char)
  | [] => none
  | c :: cs => if c = '}' then some (c :: cs) else dropToClose cs

/-- The text matched by the greedy DOTALL pattern `\x7b.*\x7d`: from the
first `{` of the input through the last `}` after it, `none` when the
pattern does not occur. -/
def extractJson (cs : List Char) : Option (List Char) :=
  (firstBrace cs).bind fun s => (dropToClose s.reverse).map List.reverse

/-- A decoded JSON value (the subset the organizer's replies use). -/
inductive JVal where
  | str (s : String) : JVal
  | num (n : Int) : JVal
  | bool (b : Bool) : JVal
  | null : JVal
  | arr (xs : List JVal) : JVal
  | obj (fields : List (String × JVal)) : JVal

/-- JSON whitespace. -/
def jsonWs (c : Char) : Bool := c = ' ' || c = '\n' || c = '\t' || c = '\r'

/-- A JSON string body: the characters up to the closing quote.  Escape
sequences are rejected rather than decoded; no input considered in this
development contains them. -/
def parseStringBody : List Char → Option (String × List Char)
  | [] => none
  | c :: cs =>
      if c = '"' then some ("", cs)
      else if c = '\\' then none
      else (parseStringBody cs).map (fun r => (String.mk [c] ++ r.1, r.2))

/-- Digits of a natural number literal. -/
def parseDigits : List Char → Nat → (Nat × List Char)
  | [], acc => (acc, [])
  | c :: cs, acc =>
      if c.isDigit then parseDigits cs (acc * 10 + (c.toNat - '0'.toNat))
      else (acc, c :: cs)

mutual
/-- Recursive-descent model of `json.loads` on one value; `fuel` bounds
the recursion depth and is always instantiated large enough to be
irrelevant. -/
def parseVal (fuel : Nat) (cs : List Char) : Option (JVal × List Char) :=
  match fuel with
  | 0 => none
  | fuel + 1 =>
    match cs.dropWhile jsonWs with
    | [] => none
    | c :: rest =>
      if c = '"' then (parseStringBody rest).map (fun r => (.str r.1, r.2))
      else if c = '{' then
        match (rest.dropWhile jsonWs) with
        | '}' :: rest' => some (.obj [], rest')
        | _ => (parseFields fuel rest).map (fun r => (.obj r.1, r.2))
      else if c = '[' then
        match (rest.dropWhile jsonWs) with
        | ']' :: rest' => some (.arr [], rest')
        | _ => (parseItems fuel rest).map (fun r => (.arr r.1, r.2))
      else if c = 't' then
        if rest.take 3 = ['r', 'u', 'e'] then some (.bool true, rest.drop 3) else none
      else if c = 'f' then
        if rest.take 4 = ['a', 'l', 's', 'e'] then some (.bool false, rest.drop 4) else none
      else if c = 'n' then
        if rest.take 3 = ['u', 'l', 'l'] then some (.null, rest.drop 3) else none
      else if c = '-' then
        match rest with
        | d :: _ =>
            if d.isDigit then
              let r := parseDigits rest 0
              some (.num (-(r.1 : Int)), r.2)
            else none
        | [] => none
      else if c.isDigit then
        let r := parseDigits (c :: rest) 0
        some (.num (r.1 : Int), r.2)
      else none
/-- The members of a non-empty object, starting after `{` or after a
comma: `"key": value`, then `,` to continue or `}` to finish. -/
def parseFields (fuel : Nat) (cs : List Char) : Option (List (String × JVal) × List Char) :=
  match fuel with
  | 0 => none
  | fuel + 1 =>
    match cs.dropWhile jsonWs with
    | '"' :: rest =>
      match parseStringBody rest with
      | none => none
      | some (k, rest1) =>
        match rest1.dropWhile jsonWs with
        | ':' :: rest2 =>
          match parseVal fuel rest2 with
          | none => none
          | some (v, rest3) =>
            match rest3.dropWhile jsonWs with
            | ',' :: rest4 => (parseFields fuel rest4).map (fun r => ((k, v) :: r.1, r.2))
            | '}' :: rest4 => some ([(k, v)], rest4)
            | _ => none
        | _ => none
    | _ => none
/-- The items of a non-empty array, separated by commas, closed by `]`. -/
def parseItems (fuel : Nat) (cs : List Char) : Option (List JVal × List Char) :=
  match fuel with
  | 0 => none
  | fuel + 1 =>
    match parseVal fuel cs with
    | none => none
    | some (v, rest) =>
      match rest.dropWhile jsonWs with
      | ',' :: rest1 => (parseItems fuel rest1).map (fun r => (v :: r.1, r.2))
      | ']' :: rest1 => some ([v], rest1)
      | _ => none
end

/-- `json.loads` on a character list: one value, nothing but whitespace
after it. -/
def json_loads (cs : List Char) : Option JVal :=
  match parseVal (cs.length + 1) cs with
  | some (v, rest) => if (rest.dropWhile jsonWs).isEmpty then some v else none
  | none => none

/-- `get_organization_suggestions`, given the service reply text: locate
the greedy `\x7b.*\x7d` match and decode it; a missing match
(`ValueError`) or a decoding failure (`json.JSONDecodeError`) is caught
by the surrounding `except` and yields `None`. -/
def get_organization_suggestions (response_text : String) : Option JVal :=
  match extractJson response_text.data with
  | none => none
  | some js => json_loads js

/-! ## Orchestrator (`run`) -/

/-- Python truthiness of the decoded plan value
(`if not organization_plan:`). -/
def JVal.truthy : JVal → Bool
  | .str s => s != ""
  | .num n => n != 0
  | .bool b => b
  | .null => false
  | .arr xs => !xs.isEmpty
  | .obj fields => !fields.isEmpty

/-- The `organization_plan` mapping read out of the decoded value:
its string-valued members, in order.  (A decoded value without an
`organization_plan` object makes the Python code raise an uncaught
`KeyError`/`TypeError` inside `reorganize_vault`; no claim reaches that
case, and the model returns the empty mapping there.) -/
def toPlan : JVal → Plan
  | .obj fields =>
      match fields.find? (fun kv => kv.1 == "organization_plan") with
      | some (_, JVal.obj entries) =>
          entries.filterMap (fun kv =>
            match kv.2 with
            | .str s => some (kv.1, s)
            | _ => none)
      | _ => []
  | _ => []

/-- The confirmation test of `run`:
`response.lower() in ['yes', 'y']`. -/
def affirmative (s : String) : Bool := strToLower s == "yes" || strToLower s == "y"

/-- Whether an event mutates the vault subtree: directory creation or
removal, a file move (or a failed attempt at one), or the report write.
The backup copy lands outside the vault and the service call touches no
file. -/
def Event.isVaultMutation : Event → Bool
  | .mkdirp _ => true
  | .move _ _ => true
  | .moveError _ => true
  | .rmdir _ => true
  | .writeReport _ => true
  | .serviceCall => false
  | .backupCopy => false

/-- `run` (lines 221-262) as the event trace of one execution: index the
vault; stop if no records; back up if requested; call the service
(`serviceResponse = none` models a transport failure, i.e. the `except`
branch); stop if the decoded plan is falsy; show the plan and read
`userInput`; reorganize only on an affirmative answer. -/
def run (pfx : List String) (t : FSTree) (fs : VaultFS) (doBackup : Bool)
    (serviceResponse : Option String) (userInput : String) : List Event :=
  let index := index_walk [] t
  if index.isEmpty then []
  else
    let evs := (if doBackup then [Event.backupCopy] else []) ++ [Event.serviceCall]
    match serviceResponse.bind get_organization_suggestions with
    | none => evs
    | some planObj =>
      if !planObj.truthy then evs
      else if affirmative userInput then
        evs ++ (reorganize_vault pfx index (toPlan planObj) fs).2
      else evs

/-! ## Theorems -/

/-- C2 counterexample: for a vault named `myvault` the backup directory is
`obsidian_vault_backup_<timestamp>`, not `myvault_backup_<timestamp>` —
the backup name never contains the vault's own directory name. -/
theorem backup_name_ignores_vault_name :
    create_backup_path ⟨["home"], "myvault"⟩ "20250101_120000"
      = ["home", "obsidian_vault_backup_20250101_120000"]
    ∧ create_backup_path ⟨["home"], "myvault"⟩ "20250101_120000"
      ≠ ["home", "myvault_backup_20250101_120000"] := by
  exact ⟨rfl, by decide⟩

/-- C2 amended: for every vault path, the backup stage copies the pruned
vault subtree to a child of the vault's parent directory whose name is
the fixed string `obsidian_vault_backup_` followed by the
second-granularity timestamp, independent of the vault's own name. -/
theorem backup_is_fixed_named_sibling (v : VaultPath) (t : FSTree) (ts : String) :
    create_backup v t ts = (v.parent ++ ["obsidian_vault_backup_" ++ ts], backupTree t)
    ∧ (create_backup v t ts).1.dropLast = v.parent := by
  refine ⟨rfl, ?_⟩
  simp [create_backup, create_backup_path]

/-- C5: when indexing yields zero records, `run` performs no action at
all — no backup copy even when requested, no service call, and no
filesystem mutation. -/
theorem run_halts_on_empty_index (pfx : List String) (t : FSTree) (fs : VaultFS)
    (doBackup : Bool) (resp : Option String) (input : String)
    (h : index_walk [] t = []) :
    run pfx t fs doBackup resp input = [] := by
  simp [run, h]

/-- C5 witness: a vault holding only hidden or non-markdown entries
indexes to zero records, and the corresponding run does nothing. -/
theorem run_halts_on_empty_index_witness :
    index_walk [] (FSTree.node (.cons ".obsidian" (.node .nil [("c.md", 3)]) .nil)
        [(".hidden.md", 2), ("x.txt", 4)]) = []
    ∧ run ["v"] (FSTree.node (.cons ".obsidian" (.node .nil [("c.md", 3)]) .nil)
        [(".hidden.md", 2), ("x.txt", 4)]) ⟨[], []⟩ true (some "ok") "yes" = [] :=
  ⟨by decide, run_halts_on_empty_index ["v"] _ ⟨[], []⟩ true (some "ok") "yes" (by decide)⟩

/-- C4: whenever the confirmation answer is not one of the affirmative
tokens (`yes`/`y` after lowercasing), the run mutates nothing in the
vault: no directory is created or removed, no file is moved, and no
report is written. -/
theorem cancellation_leaves_vault_untouched (pfx : List String) (t : FSTree)
    (fs : VaultFS) (doBackup : Bool) (resp : Option String) (input : String)
    (h : affirmative input = false) :
    (run pfx t fs doBackup resp input).filter Event.isVaultMutation = [] := by
  unfold run
  cases hidx : (index_walk [] t).isEmpty with
  | true => simp [hidx]
  | false =>
    simp only [hidx, Bool.false_eq_true, if_false]
    cases hplan : resp.bind get_organization_suggestions with
    | none => cases doBackup <;> rfl
    | some p =>
      cases htr : p.truthy with
      | false => simp only [htr, Bool.not_false, if_true]; cases doBackup <;> rfl
      | true =>
        simp only [htr, Bool.not_true, Bool.false_eq_true, if_false, h]
        cases doBackup <;> rfl

/-- C4 witness: answering `no` on a non-empty vault with a decodable plan
reply produces no vault mutation. -/
theorem cancellation_leaves_vault_untouched_witness :
    affirmative "no" = false
    ∧ (run ["v"] (FSTree.node .nil [("a.md", 1)]) ⟨[["v", "a.md"]], []⟩ true
        (some "\x7b\"organization_plan\": \x7b\"a.md\": \"B\"\x7d\x7d") "no").filter
        Event.isVaultMutation = [] :=
  ⟨by decide,
   cancellation_leaves_vault_untouched ["v"] _ _ true _ "no" (by decide)⟩

/-- C3 counterexample: reorganizing with an empty file index under the
plan mapping `ghost.md` to `X` moves no file — the trace holds no move
event and the resulting state holds no file besides the report — yet the
File Movements section contains a line for `ghost.md`; lines track plan
entries, not files whose parent folder actually changed. -/
theorem report_line_without_any_move :
    movementLines [("ghost.md", "X")] = ["- `ghost.md` → `X/ghost.md`\n"]
    ∧ (reorganize_vault ["vault"] [] [("ghost.md", "X")] ⟨[], []⟩).2
      = [Event.mkdirp ["vault", "X"], Event.rmdir ["vault", "X"],
         Event.writeReport ["- `ghost.md` → `X/ghost.md`\n"]]
    ∧ (reorganize_vault ["vault"] [] [("ghost.md", "X")] ⟨[], []⟩).1.files
      = [["vault", "_organization_report.md"]] :=
  ⟨rfl, rfl, rfl⟩

/-- C3 amended: the File Movements section contains exactly one line per
`organization_plan` entry whose key's immediate parent differs, as a
path, from the entry's target folder — irrespective of whether a
corresponding indexed file exists or was actually moved — and entries
whose parent equals the target folder get no line; the reorganizer
always ends by writing exactly these lines. -/
theorem movement_lines_track_plan_entries (plan : Plan) :
    (∀ l, l ∈ movementLines plan ↔
      ∃ c n, (c, n) ∈ plan ∧ parentParts c ≠ pathParts n ∧ l = renderMove c n)
    ∧ ∀ pfx index fs, ∃ evs, (reorganize_vault pfx index plan fs).2
        = evs ++ [Event.writeReport (movementLines plan)] := by
  constructor
  · intro l
    constructor
    · intro hl
      rw [movementLines, List.mem_map] at hl
      obtain ⟨cn, hmem, hrend⟩ := hl
      rw [movementPairs, List.mem_filter] at hmem
      refine ⟨cn.1, cn.2, hmem.1, ?_, hrend.symm⟩
      simpa using hmem.2
    · rintro ⟨c, n, hmem, hne, hl⟩
      rw [movementLines, List.mem_map]
      refine ⟨(c, n), ?_, hl.symm⟩
      rw [movementPairs, List.mem_filter]
      exact ⟨hmem, by simpa using hne⟩
  · intro pfx index fs
    exact ⟨_, rfl⟩

/-- The first-brace search ignores a prefix containing no `{`. -/
theorem firstBrace_append (p rest : List Char) (h : '{' ∉ p) :
    firstBrace (p ++ rest) = firstBrace rest := by
  induction p with
  | nil => rfl
  | cons c cs ih =>
    rw [List.cons_append, firstBrace, if_neg (by simp at h; exact fun e => h.1 e.symm),
      ih (by simp at h; exact h.2)]

/-- The first-brace search stops at an opening brace. -/
theorem firstBrace_cons_brace (cs : List Char) :
    firstBrace ('{' :: cs) = some ('{' :: cs) := by
  rw [firstBrace, if_pos rfl]

/-- The close-brace search ignores a prefix containing no `}`. -/
theorem dropToClose_append (p rest : List Char) (h : '}' ∉ p) :
    dropToClose (p ++ rest) = dropToClose rest := by
  induction p with
  | nil => rfl
  | cons c cs ih =>
    rw [List.cons_append, dropToClose, if_neg (by simp at h; exact fun e => h.1 e.symm),
      ih (by simp at h; exact h.2)]

/-- The close-brace search stops at a closing brace. -/
theorem dropToClose_cons_brace (cs : List Char) :
    dropToClose ('}' :: cs) = some ('}' :: cs) := by
  rw [dropToClose, if_pos rfl]

/-- The greedy `\x7b.*\x7d` match over `prose ++ object ++ prose` is the
object itself whenever the leading prose holds no `{` and the trailing
prose holds no `}`. -/
theorem extractJson_of_clean_prose (p₁ p₂ j' : List Char)
    (h1 : '{' ∉ p₁) (h2 : '}' ∉ p₂) :
    extractJson (p₁ ++ ('{' :: (j' ++ ['}'])) ++ p₂) = some ('{' :: (j' ++ ['}'])) := by
  rw [extractJson]
  rw [show p₁ ++ ('{' :: (j' ++ ['}'])) ++ p₂ = p₁ ++ ('{' :: (j' ++ ['}'] ++ p₂)) by simp]
  rw [firstBrace_append _ _ h1, firstBrace_cons_brace]
  simp only [Option.bind]
  rw [show ('{' :: (j' ++ ['}'] ++ p₂)).reverse
        = p₂.reverse ++ ('}' :: (j'.reverse ++ ['{'])) by simp]
  rw [dropToClose_append _ _ (by simpa using h2), dropToClose_cons_brace]
  simp

/-- C6 counterexample: the reply consisting of the valid JSON object
`\x7b"a": "b"\x7d` followed by the extraneous prose ` also \x7d` defeats
the planner: the greedy match swallows the prose's `}`, decoding fails,
and the planner returns nothing, although the reply is one valid JSON
object surrounded by non-JSON text. -/
theorem planner_fails_on_trailing_brace :
    json_loads "\x7b\"a\": \"b\"\x7d".data = some (JVal.obj [("a", JVal.str "b")])
    ∧ get_organization_suggestions "\x7b\"a\": \"b\"\x7d also \x7d" = none :=
  ⟨rfl, rfl⟩

/-- C6 amended: for every service reply made of one valid JSON object
surrounded by extraneous prose whose leading part contains no `{` and
whose trailing part contains no `}`, the planner locates the object via
the first-`\x7b...\x7d`-greedy search and decodes it, returning the decoded
plan.  (With a brace in the surrounding prose the greedy match is not the
object and decoding fails, as the counterexample shows.) -/
theorem planner_decodes_brace_clean_reply (p₁ p₂ j' : List Char) (v : JVal)
    (h1 : '{' ∉ p₁) (h2 : '}' ∉ p₂)
    (hv : json_loads ('{' :: (j' ++ ['}'])) = some v) :
    get_organization_suggestions ⟨p₁ ++ ('{' :: (j' ++ ['}'])) ++ p₂⟩ = some v := by
  rw [get_organization_suggestions]
  rw [show (String.mk (p₁ ++ ('{' :: (j' ++ ['}'])) ++ p₂)).data
        = p₁ ++ ('{' :: (j' ++ ['}'])) ++ p₂ from rfl]
  rw [extractJson_of_clean_prose p₁ p₂ j' h1 h2]
  exact hv

/-- C6 witness: a reply with prose on both sides of the object
`\x7b"organization_plan": \x7b"a.md": "B"\x7d\x7d` decodes to that plan. -/
theorem planner_decodes_brace_clean_reply_witness :
    '{' ∉ "Sure, here is the plan: ".data
    ∧ '}' ∉ " — hope this helps.".data
    ∧ get_organization_suggestions
        ⟨"Sure, here is the plan: ".data
          ++ ('{' :: ("\"organization_plan\": \x7b\"a.md\": \"B\"\x7d".data ++ ['}']))
          ++ " — hope this helps.".data⟩
      = some (JVal.obj [("organization_plan", JVal.obj [("a.md", JVal.str "B")])]) :=
  ⟨by decide, by decide,
   planner_decodes_brace_clean_reply _ _ _ _ (by decide) (by decide) rfl⟩

/-- A successful `shutil.move` rewrites the file list by removing the
source and adding the real destination; directories are untouched. -/
theorem doMove_eq_some (fs : VaultFS) (src dst : List String) (fs2 : VaultFS)
    (real : List String) (h : doMove fs src dst = some (fs2, real)) :
    fs2.files = real :: fs.files.filter (· ≠ src) ∧ fs2.dirs = fs.dirs := by
  simp only [doMove] at h
  split_ifs at h
  all_goals
    rw [Option.some.injEq, Prod.mk.injEq] at h
    obtain ⟨h1, h2⟩ := h
    subst h1
    subst h2
    exact ⟨rfl, rfl⟩

/-- A record whose path is not a key of the plan is skipped outright. -/
theorem processRecord_skips_unmapped (pfx : List String) (plan : Plan)
    (acc : VaultFS × List Event) (r : FileRecord)
    (h : lookupPlan plan r.full_relative_path = none) :
    processRecord pfx plan acc r = acc := by
  rw [processRecord, h]

/-- Processing any one record preserves every file other than the
record's own source path, and the only move or move-failure events it
appends concern that source path. -/
theorem processRecord_preserves_other (pfx : List String) (plan : Plan)
    (acc : VaultFS × List Event) (r : FileRecord) (p : List String)
    (hne : joinParts pfx (pathParts r.full_relative_path) ≠ p)
    (hp : p ∈ acc.1.files) :
    p ∈ (processRecord pfx plan acc r).1.files
    ∧ ∀ e ∈ (processRecord pfx plan acc r).2,
        e ∈ acc.2 ∨ ((∀ d, e ≠ Event.move p d) ∧ e ≠ Event.moveError p) := by
  rw [processRecord]
  cases hlk : lookupPlan plan r.full_relative_path with
  | none => exact ⟨hp, fun e he => Or.inl he⟩
  | some folder =>
    simp only
    split
    · exact ⟨hp, fun e he => Or.inl he⟩
    · rename_i hsd
      cases hmv : doMove
          { acc.1 with
            dirs := prefixesOf (joinParts pfx (joinParts (pathParts folder)
              (pathParts r.filename))).dropLast ++ acc.1.dirs }
          (joinParts pfx (pathParts r.full_relative_path))
          (joinParts pfx (joinParts (pathParts folder) (pathParts r.filename))) with
      | none =>
        refine ⟨hp, fun e he => ?_⟩
        simp only [List.mem_append, List.mem_singleton] at he
        rcases he with (he | he) | he
        · exact Or.inl he
        · subst he
          exact Or.inr ⟨fun d h => Event.noConfusion h, fun h => Event.noConfusion h⟩
        · subst he
          refine Or.inr ⟨fun d h => Event.noConfusion h, fun h => ?_⟩
          injection h with h1
          exact hne h1
      | some pr =>
        obtain ⟨hfl, -⟩ := doMove_eq_some _ _ _ pr.1 pr.2 (by simpa using hmv)
        constructor
        · simp only [hfl, List.mem_cons, List.mem_filter]
          refine Or.inr ⟨hp, ?_⟩
          simpa using fun h => hne h.symm
        · intro e he
          simp only [List.mem_append, List.mem_singleton] at he
          rcases he with (he | he) | he
          · exact Or.inl he
          · subst he
            exact Or.inr ⟨fun d h => Event.noConfusion h, fun h => Event.noConfusion h⟩
          · subst he
            refine Or.inr ⟨fun d h => ?_, fun h => Event.noConfusion h⟩
            injection h with h1 h2
            exact hne h1

/-- The whole move loop preserves a file when every record that could
name it as source is unmapped, and never emits a move or move-failure
event for it. -/
theorem foldl_preserves_unmapped (pfx : List String) (plan : Plan) (p : List String)
    (idx : List FileRecord)
    (habs : ∀ r ∈ idx, joinParts pfx (pathParts r.full_relative_path) = p →
        lookupPlan plan r.full_relative_path = none) :
    ∀ acc : VaultFS × List Event, p ∈ acc.1.files →
      p ∈ (idx.foldl (processRecord pfx plan) acc).1.files
      ∧ ∀ e ∈ (idx.foldl (processRecord pfx plan) acc).2,
          e ∈ acc.2 ∨ ((∀ d, e ≠ Event.move p d) ∧ e ≠ Event.moveError p) := by
  induction idx with
  | nil => exact fun acc hp => ⟨hp, fun e he => Or.inl he⟩
  | cons r rest ih =>
    intro acc hp
    rw [List.foldl_cons]
    by_cases hsrc : joinParts pfx (pathParts r.full_relative_path) = p
    · have hnone := habs r (List.mem_cons_self r rest) hsrc
      rw [processRecord_skips_unmapped pfx plan acc r hnone]
      exact ih (fun r2 h2 => habs r2 (List.mem_cons_of_mem r h2)) acc hp
    · have hstep := processRecord_preserves_other pfx plan acc r p hsrc hp
      have hrest := ih (fun r2 h2 => habs r2 (List.mem_cons_of_mem r h2))
        (processRecord pfx plan acc r) hstep.1
      refine ⟨hrest.1, fun e he => ?_⟩
      rcases hrest.2 e he with hin | hgood
      · exact hstep.2 e hin
      · exact Or.inr hgood

/-- A key bound in the plan is found by the lookup. -/
theorem lookupPlan_none_no_binding (plan : Plan) (k : String)
    (h : lookupPlan plan k = none) : ∀ n, (k, n) ∉ plan := by
  intro n hmem
  rw [lookupPlan, Option.map_eq_none'] at h
  rw [List.find?_eq_none] at h
  exact absurd (by simp : (((k, n) : String × String).1 == k) = true) (h (k, n) hmem)

/-- C7: a FileRecord whose `full_relative_path` is not a key of the
plan's mapping is left at its original location by the whole
reorganization, no move is attempted for it (so no error can be raised
for it), and the report's File Movements section has no entry keyed by
its path.  The hypothesis quantifies over every record denoting the same
absolute source path, which for the indexer's canonical relative paths
is just the record itself. -/
theorem unmapped_record_left_untouched (pfx : List String) (index : List FileRecord)
    (plan : Plan) (fs : VaultFS) (r : FileRecord) (hr : r ∈ index)
    (habs : ∀ r2 ∈ index,
      joinParts pfx (pathParts r2.full_relative_path)
        = joinParts pfx (pathParts r.full_relative_path) →
      lookupPlan plan r2.full_relative_path = none)
    (hf : joinParts pfx (pathParts r.full_relative_path) ∈ fs.files) :
    joinParts pfx (pathParts r.full_relative_path)
      ∈ (reorganize_vault pfx index plan fs).1.files
    ∧ (∀ d, Event.move (joinParts pfx (pathParts r.full_relative_path)) d
        ∉ (reorganize_vault pfx index plan fs).2)
    ∧ Event.moveError (joinParts pfx (pathParts r.full_relative_path))
        ∉ (reorganize_vault pfx index plan fs).2
    ∧ ∀ n, (r.full_relative_path, n) ∉ movementPairs plan := by
  have hfold := foldl_preserves_unmapped pfx plan
    (joinParts pfx (pathParts r.full_relative_path)) index habs
    ({ fs with dirs := ((((plan.map (fun cn => pathParts cn.2)).filter (· ≠ [])).dedup).map
        (fun d => prefixesOf (joinParts pfx d))).flatten ++ fs.dirs }, []) hf
  refine ⟨?_, ?_, ?_, ?_⟩
  · show _ ∈ _ :: (cleanupFlat pfx _).1.files
    right
    show _ ∈ (List.foldl (processRecord pfx plan) _ index).1.files
    exact hfold.1
  · intro d hmem
    simp only [reorganize_vault, cleanupFlat, List.mem_append, List.mem_map,
      List.mem_singleton] at hmem
    rcases hmem with ((hmem | hmem) | hmem) | hmem
    · obtain ⟨x, -, hx⟩ := hmem
      exact Event.noConfusion hx
    · rcases hfold.2 _ hmem with hin | hgood
      · cases hin
      · exact hgood.1 d rfl
    · obtain ⟨x, -, hx⟩ := hmem
      exact Event.noConfusion hx
    · exact Event.noConfusion hmem
  · intro hmem
    simp only [reorganize_vault, cleanupFlat, List.mem_append, List.mem_map,
      List.mem_singleton] at hmem
    rcases hmem with ((hmem | hmem) | hmem) | hmem
    · obtain ⟨x, -, hx⟩ := hmem
      exact Event.noConfusion hx
    · rcases hfold.2 _ hmem with hin | hgood
      · cases hin
      · exact hgood.2 rfl
    · obtain ⟨x, -, hx⟩ := hmem
      exact Event.noConfusion hx
    · exact Event.noConfusion hmem
  · intro n hmem
    exact lookupPlan_none_no_binding plan r.full_relative_path
      (habs r hr rfl) n (List.mem_filter.mp hmem).1

/-- C7 witness: the record for `x.md`, absent from the plan keyed only by
`a.md`, survives reorganization in place with no move event and no
report entry. -/
theorem unmapped_record_left_untouched_witness :
    joinParts ["v"] (pathParts "x.md")
      ∈ (reorganize_vault ["v"] [⟨"x.md", ".", "x.md", 1⟩] [("a.md", "B")]
          ⟨[["v", "x.md"]], []⟩).1.files
    ∧ ∀ n, ("x.md", n) ∉ movementPairs [("a.md", "B")] :=
  ⟨(unmapped_record_left_untouched ["v"] [⟨"x.md", ".", "x.md", 1⟩] [("a.md", "B")]
      ⟨[["v", "x.md"]], []⟩ ⟨"x.md", ".", "x.md", 1⟩ (by decide) (by decide) (by decide)).1,
   (unmapped_record_left_untouched ["v"] [⟨"x.md", ".", "x.md", 1⟩] [("a.md", "B")]
      ⟨[["v", "x.md"]], []⟩ ⟨"x.md", ".", "x.md", 1⟩ (by decide) (by decide) (by decide)).2.2.2⟩

/-- Every member of `prefixesOf l` is at most as long as `l`. -/
theorem length_le_of_mem_prefixesOf {p l : List String} (h : p ∈ prefixesOf l) :
    p.length ≤ l.length := by
  rw [prefixesOf] at h
  obtain ⟨i, hi, hp⟩ := List.mem_map.mp h
  subst hp
  simp [List.length_take]

/-- A path never lies among the proper prefixes of its own parent. -/
theorem not_mem_prefixesOf_dropLast (l : List String) : l ∉ prefixesOf l.dropLast := by
  intro h
  have hlen := length_le_of_mem_prefixesOf h
  rw [List.length_dropLast] at hlen
  cases l with
  | nil => simp [prefixesOf] at h
  | cons a as => simp at hlen

/-- A non-empty path is one of its own prefixes. -/
theorem self_mem_prefixesOf (l : List String) (h : l ≠ []) : l ∈ prefixesOf l := by
  have hpos : 0 < l.length := List.length_pos.mpr h
  rw [prefixesOf]
  refine List.mem_map.mpr ⟨l.length - 1, List.mem_range.mpr (by omega), ?_⟩
  rw [show l.length - 1 + 1 = l.length by omega]
  exact List.take_length l

/-- A mapped record whose source equals its destination is not moved. -/
theorem processRecord_skips_in_place (pfx : List String) (plan : Plan)
    (acc : VaultFS × List Event) (r : FileRecord) (folder : String)
    (hlk : lookupPlan plan r.full_relative_path = some folder)
    (he : joinParts pfx (pathParts r.full_relative_path)
        = joinParts pfx (joinParts (pathParts folder) (pathParts r.filename))) :
    processRecord pfx plan acc r = acc := by
  simp only [processRecord, hlk]
  rw [if_pos he]

/-- A mapped record whose source differs from its destination is moved:
the parent of the destination is created and the move performed, in that
order, and the state is rewritten accordingly. -/
theorem processRecord_moves_mapped (pfx : List String) (plan : Plan)
    (acc : VaultFS × List Event) (r : FileRecord) (folder : String)
    (hlk : lookupPlan plan r.full_relative_path = some folder)
    (hne : joinParts pfx (pathParts r.full_relative_path)
        ≠ joinParts pfx (joinParts (pathParts folder) (pathParts r.filename)))
    (hs : joinParts pfx (pathParts r.full_relative_path) ∈ acc.1.files)
    (hd : joinParts pfx (joinParts (pathParts folder) (pathParts r.filename))
        ∉ acc.1.dirs) :
    processRecord pfx plan acc r =
      ({ files := joinParts pfx (joinParts (pathParts folder) (pathParts r.filename))
            :: acc.1.files.filter (· ≠ joinParts pfx (pathParts r.full_relative_path)),
         dirs := prefixesOf (joinParts pfx (joinParts (pathParts folder)
            (pathParts r.filename))).dropLast ++ acc.1.dirs },
       acc.2 ++ [Event.mkdirp (joinParts pfx (joinParts (pathParts folder)
            (pathParts r.filename))).dropLast,
          Event.move (joinParts pfx (pathParts r.full_relative_path))
            (joinParts pfx (joinParts (pathParts folder) (pathParts r.filename)))]) := by
  have hnotd : joinParts pfx (joinParts (pathParts folder) (pathParts r.filename))
      ∉ prefixesOf (joinParts pfx (joinParts (pathParts folder)
        (pathParts r.filename))).dropLast ++ acc.1.dirs := by
    intro hmem
    rcases List.mem_append.mp hmem with h | h
    · exact not_mem_prefixesOf_dropLast _ h
    · exact hd h
  simp only [processRecord, hlk]
  rw [if_neg hne]
  have hdm : doMove
      { acc.1 with
        dirs := prefixesOf (joinParts pfx (joinParts (pathParts folder)
          (pathParts r.filename))).dropLast ++ acc.1.dirs }
      (joinParts pfx (pathParts r.full_relative_path))
      (joinParts pfx (joinParts (pathParts folder) (pathParts r.filename)))
      = some
        ({ files := joinParts pfx (joinParts (pathParts folder) (pathParts r.filename))
              :: acc.1.files.filter (· ≠ joinParts pfx (pathParts r.full_relative_path)),
           dirs := prefixesOf (joinParts pfx (joinParts (pathParts folder)
              (pathParts r.filename))).dropLast ++ acc.1.dirs },
         joinParts pfx (joinParts (pathParts folder) (pathParts r.filename))) := by
    simp only [doMove, hnotd, hs, if_true, if_false]
  rw [hdm]
  simp [List.append_assoc]


/-- The single-binding plan finds its own key. -/
theorem lookupPlan_singleton (k v : String) : lookupPlan [(k, v)] k = some v := by
  simp [lookupPlan]

/-- End-to-end single-record scenario: reorganizing one mapped record
moves the file into `folder/filename` inside the vault, removes it from
its old place, leaves the target directory existing, and the trace shows
the target directory's creation before the move. -/
theorem reorganize_singleton_scenario (pfx : List String) (fs : VaultFS)
    (r : FileRecord) (folder : String)
    (hF : pathParts folder ≠ [])
    (hFh : (pathParts folder).head? ≠ some "/")
    (hN : pathParts r.filename ≠ [])
    (hNh : (pathParts r.filename).head? ≠ some "/")
    (hsrc : joinParts pfx (pathParts r.full_relative_path) ∈ fs.files)
    (hne : joinParts pfx (pathParts r.full_relative_path)
        ≠ pfx ++ (pathParts folder ++ pathParts r.filename))
    (hdirs : pfx ++ (pathParts folder ++ pathParts r.filename) ∉ fs.dirs)
    (hrep : joinParts pfx (pathParts r.full_relative_path) ≠ reportPath pfx) :
    pfx ++ (pathParts folder ++ pathParts r.filename)
      ∈ (reorganize_vault pfx [r] [(r.full_relative_path, folder)] fs).1.files
    ∧ joinParts pfx (pathParts r.full_relative_path)
      ∉ (reorganize_vault pfx [r] [(r.full_relative_path, folder)] fs).1.files
    ∧ pfx ++ pathParts folder
      ∈ (reorganize_vault pfx [r] [(r.full_relative_path, folder)] fs).1.dirs
    ∧ ∃ rest, (reorganize_vault pfx [r] [(r.full_relative_path, folder)] fs).2
        = Event.mkdirp (pfx ++ pathParts folder)
          :: Event.mkdirp (pfx ++ (pathParts folder ++ pathParts r.filename)).dropLast
          :: Event.move (joinParts pfx (pathParts r.full_relative_path))
               (pfx ++ (pathParts folder ++ pathParts r.filename)) :: rest := by
  have hlk := lookupPlan_singleton r.full_relative_path folder
  have hjoinN : joinParts (pathParts folder) (pathParts r.filename)
      = pathParts folder ++ pathParts r.filename := by
    rw [joinParts, if_neg hNh]
  have hjoinFN : joinParts pfx (pathParts folder ++ pathParts r.filename)
      = pfx ++ (pathParts folder ++ pathParts r.filename) := by
    rw [joinParts, if_neg]
    rw [List.head?_append_of_ne_nil _ hF]
    exact hFh
  have hjoinF : joinParts pfx (pathParts folder) = pfx ++ pathParts folder := by
    rw [joinParts, if_neg hFh]
  have hdst : joinParts pfx (joinParts (pathParts folder) (pathParts r.filename))
      = pfx ++ (pathParts folder ++ pathParts r.filename) := by
    rw [hjoinN, hjoinFN]
  have hNpos : 0 < (pathParts r.filename).length := List.length_pos.mpr hN
  have hlenlt : (pfx ++ pathParts folder).length
      < (pfx ++ (pathParts folder ++ pathParts r.filename)).length := by
    simp only [List.length_append]
    omega
  have hnd : (([(r.full_relative_path, folder)].map (fun cn => pathParts cn.2)).filter
      (· ≠ [])).dedup = [pathParts folder] := by
    rw [List.map_cons, List.map_nil]
    rw [List.filter_cons_of_pos (by simpa using hF), List.filter_nil]
    rw [List.dedup_cons_of_not_mem (List.not_mem_nil _), List.dedup_nil]
  have hd1 : joinParts pfx (joinParts (pathParts folder) (pathParts r.filename))
      ∉ (({ fs with dirs := prefixesOf (pfx ++ pathParts folder) ++ fs.dirs },
          ([] : List Event)) : VaultFS × List Event).1.dirs := by
    rw [hdst]
    intro hmem
    rcases List.mem_append.mp hmem with h | h
    · exact absurd (length_le_of_mem_prefixesOf h) (by omega)
    · exact hdirs h
  have hfold := processRecord_moves_mapped pfx [(r.full_relative_path, folder)]
    ({ fs with dirs := prefixesOf (pfx ++ pathParts folder) ++ fs.dirs }, []) r folder hlk
    (by rw [hdst]; exact hne) hsrc hd1
  rw [hdst] at hfold
  have hres : reorganize_vault pfx [r] [(r.full_relative_path, folder)] fs
      = ({ files := reportPath pfx
             :: (pfx ++ (pathParts folder ++ pathParts r.filename))
               :: fs.files.filter (· ≠ joinParts pfx (pathParts r.full_relative_path)),
           dirs := (prefixesOf (pfx ++ (pathParts folder ++ pathParts r.filename)).dropLast
               ++ (prefixesOf (pfx ++ pathParts folder) ++ fs.dirs)).filter
             (fun d => !(pfx.isPrefixOf d
               && ((pfx ++ (pathParts folder ++ pathParts r.filename))
                   :: fs.files.filter (· ≠ joinParts pfx (pathParts r.full_relative_path))).all
                 (fun f => !(d.isPrefixOf f && d ≠ f))
               && (prefixesOf (pfx ++ (pathParts folder ++ pathParts r.filename)).dropLast
                   ++ (prefixesOf (pfx ++ pathParts folder) ++ fs.dirs)).all
                 (fun q => !(d.isPrefixOf q && d ≠ q))
               && visiblePath d)) },
         Event.mkdirp (pfx ++ pathParts folder)
           :: Event.mkdirp (pfx ++ (pathParts folder ++ pathParts r.filename)).dropLast
           :: Event.move (joinParts pfx (pathParts r.full_relative_path))
               (pfx ++ (pathParts folder ++ pathParts r.filename))
           :: (((prefixesOf (pfx ++ (pathParts folder ++ pathParts r.filename)).dropLast
               ++ (prefixesOf (pfx ++ pathParts folder) ++ fs.dirs)).filter
             (fun d => pfx.isPrefixOf d
               && ((pfx ++ (pathParts folder ++ pathParts r.filename))
                   :: fs.files.filter (· ≠ joinParts pfx (pathParts r.full_relative_path))).all
                 (fun f => !(d.isPrefixOf f && d ≠ f))
               && (prefixesOf (pfx ++ (pathParts folder ++ pathParts r.filename)).dropLast
                   ++ (prefixesOf (pfx ++ pathParts folder) ++ fs.dirs)).all
                 (fun q => !(d.isPrefixOf q && d ≠ q))
               && visiblePath d)).map Event.rmdir
             ++ [Event.writeReport (movementLines [(r.full_relative_path, folder)])])) := by
    simp only [reorganize_vault]
    rw [hnd]
    simp only [List.map_cons, List.map_nil, List.flatten_cons, List.flatten_nil,
      List.append_nil, List.foldl_cons, List.foldl_nil]
    rw [hjoinF, hfold]
    simp only [cleanupFlat]
    simp
  rw [hres]
  refine ⟨List.mem_cons_of_mem _ (List.mem_cons_self _ _), ?_, ?_, ⟨_, rfl⟩⟩
  · intro hmem
    rcases List.mem_cons.mp hmem with h | hmem
    · exact hrep h
    rcases List.mem_cons.mp hmem with h | hmem
    · exact hne h
    · have hpred := (List.mem_filter.mp hmem).2
      simp at hpred
  · apply List.mem_filter.mpr
    refine ⟨List.mem_append.mpr (Or.inr (List.mem_append.mpr (Or.inl
      (self_mem_prefixesOf _ (fun hnil => hF (List.append_eq_nil.mp hnil).2))))), ?_⟩
    have h1 : (pfx ++ pathParts folder).isPrefixOf
        (pfx ++ (pathParts folder ++ pathParts r.filename)) = true := by
      rw [List.isPrefixOf_iff_prefix, ← List.append_assoc]
      exact List.prefix_append _ _
    have h2 : (pfx ++ pathParts folder) ≠ (pfx ++ (pathParts folder ++ pathParts r.filename)) := by
      intro heq
      rw [heq] at hlenlt
      omega
    have hallf : (((pfx ++ (pathParts folder ++ pathParts r.filename))
        :: fs.files.filter (· ≠ joinParts pfx (pathParts r.full_relative_path))).all
          (fun f => !((pfx ++ pathParts folder).isPrefixOf f
            && (pfx ++ pathParts folder) ≠ f))) = false := by
      rw [List.all_cons, h1]
      simp [h2]
    simp only [hallf]
    simp

/-- C1: for every FileRecord whose `full_relative_path` is a plan key the
reorganizer computes the destination as the mapped folder joined with
the record's filename and moves exactly when that destination differs
from the current path — first conjunct: an in-place mapping is not
moved; second conjunct: otherwise the destination's parent directories
are created and the move performed, in that order; third conjunct: in
the end-to-end scenario of a plan `{path: folder}` the file ends up at
`folder/filename`, the old path is gone, the target folder exists, and
its creation event precedes the move event. -/
theorem mapped_record_moved_to_target :
    (∀ (pfx : List String) (plan : Plan) (acc : VaultFS × List Event)
        (r : FileRecord) (folder : String),
      lookupPlan plan r.full_relative_path = some folder →
      joinParts pfx (pathParts r.full_relative_path)
          = joinParts pfx (joinParts (pathParts folder) (pathParts r.filename)) →
      processRecord pfx plan acc r = acc)
    ∧ (∀ (pfx : List String) (plan : Plan) (acc : VaultFS × List Event)
        (r : FileRecord) (folder : String),
      lookupPlan plan r.full_relative_path = some folder →
      joinParts pfx (pathParts r.full_relative_path)
          ≠ joinParts pfx (joinParts (pathParts folder) (pathParts r.filename)) →
      joinParts pfx (pathParts r.full_relative_path) ∈ acc.1.files →
      joinParts pfx (joinParts (pathParts folder) (pathParts r.filename)) ∉ acc.1.dirs →
      processRecord pfx plan acc r =
        ({ files := joinParts pfx (joinParts (pathParts folder) (pathParts r.filename))
              :: acc.1.files.filter (· ≠ joinParts pfx (pathParts r.full_relative_path)),
           dirs := prefixesOf (joinParts pfx (joinParts (pathParts folder)
              (pathParts r.filename))).dropLast ++ acc.1.dirs },
         acc.2 ++ [Event.mkdirp (joinParts pfx (joinParts (pathParts folder)
              (pathParts r.filename))).dropLast,
            Event.move (joinParts pfx (pathParts r.full_relative_path))
              (joinParts pfx (joinParts (pathParts folder) (pathParts r.filename)))]))
    ∧ (∀ (pfx : List String) (fs : VaultFS) (r : FileRecord) (folder : String),
      pathParts folder ≠ [] →
      (pathParts folder).head? ≠ some "/" →
      pathParts r.filename ≠ [] →
      (pathParts r.filename).head? ≠ some "/" →
      joinParts pfx (pathParts r.full_relative_path) ∈ fs.files →
      joinParts pfx (pathParts r.full_relative_path)
          ≠ pfx ++ (pathParts folder ++ pathParts r.filename) →
      pfx ++ (pathParts folder ++ pathParts r.filename) ∉ fs.dirs →
      joinParts pfx (pathParts r.full_relative_path) ≠ reportPath pfx →
      pfx ++ (pathParts folder ++ pathParts r.filename)
        ∈ (reorganize_vault pfx [r] [(r.full_relative_path, folder)] fs).1.files
      ∧ joinParts pfx (pathParts r.full_relative_path)
        ∉ (reorganize_vault pfx [r] [(r.full_relative_path, folder)] fs).1.files
      ∧ pfx ++ pathParts folder
        ∈ (reorganize_vault pfx [r] [(r.full_relative_path, folder)] fs).1.dirs
      ∧ ∃ rest, (reorganize_vault pfx [r] [(r.full_relative_path, folder)] fs).2
          = Event.mkdirp (pfx ++ pathParts folder)
            :: Event.mkdirp (pfx ++ (pathParts folder ++ pathParts r.filename)).dropLast
            :: Event.move (joinParts pfx (pathParts r.full_relative_path))
                 (pfx ++ (pathParts folder ++ pathParts r.filename)) :: rest) :=
  ⟨fun pfx plan acc r folder hlk he =>
      processRecord_skips_in_place pfx plan acc r folder hlk he,
   fun pfx plan acc r folder hlk hne hs hd =>
      processRecord_moves_mapped pfx plan acc r folder hlk hne hs hd,
   fun pfx fs r folder hF hFh hN hNh hsrc hne hdirs hrep =>
      reorganize_singleton_scenario pfx fs r folder hF hFh hN hNh hsrc hne hdirs hrep⟩

/-- C1 witness: the record for `notes/a.md` mapped to `Projects` is moved
to `Projects/a.md` with the `Projects` directory created first, while a
record mapped to its own folder is left alone. -/
theorem mapped_record_moved_to_target_witness :
    processRecord ["v"] [("notes/a.md", "notes")]
        (⟨[["v", "notes", "a.md"]], [["v", "notes"]]⟩, [])
        ⟨"a.md", "notes", "notes/a.md", 5⟩
      = (⟨[["v", "notes", "a.md"]], [["v", "notes"]]⟩, [])
    ∧ ["v", "Projects", "a.md"]
      ∈ (reorganize_vault ["v"] [⟨"a.md", "notes", "notes/a.md", 5⟩]
          [("notes/a.md", "Projects")] ⟨[["v", "notes", "a.md"]], [["v", "notes"]]⟩).1.files
    ∧ ["v", "notes", "a.md"]
      ∉ (reorganize_vault ["v"] [⟨"a.md", "notes", "notes/a.md", 5⟩]
          [("notes/a.md", "Projects")] ⟨[["v", "notes", "a.md"]], [["v", "notes"]]⟩).1.files
    ∧ ["v", "Projects"]
      ∈ (reorganize_vault ["v"] [⟨"a.md", "notes", "notes/a.md", 5⟩]
          [("notes/a.md", "Projects")] ⟨[["v", "notes", "a.md"]], [["v", "notes"]]⟩).1.dirs
    ∧ ∃ rest, (reorganize_vault ["v"] [⟨"a.md", "notes", "notes/a.md", 5⟩]
          [("notes/a.md", "Projects")] ⟨[["v", "notes", "a.md"]], [["v", "notes"]]⟩).2
        = Event.mkdirp ["v", "Projects"]
          :: Event.mkdirp ["v", "Projects"]
          :: Event.move ["v", "notes", "a.md"] ["v", "Projects", "a.md"] :: rest :=
  ⟨mapped_record_moved_to_target.1 ["v"] [("notes/a.md", "notes")]
      (⟨[["v", "notes", "a.md"]], [["v", "notes"]]⟩, [])
      ⟨"a.md", "notes", "notes/a.md", 5⟩ "notes" (by decide) (by decide),
   (mapped_record_moved_to_target.2.2 ["v"] ⟨[["v", "notes", "a.md"]], [["v", "notes"]]⟩
      ⟨"a.md", "notes", "notes/a.md", 5⟩ "Projects" (by decide) (by decide) (by decide)
      (by decide) (by decide) (by decide) (by decide) (by decide)).1,
   (mapped_record_moved_to_target.2.2 ["v"] ⟨[["v", "notes", "a.md"]], [["v", "notes"]]⟩
      ⟨"a.md", "notes", "notes/a.md", 5⟩ "Projects" (by decide) (by decide) (by decide)
      (by decide) (by decide) (by decide) (by decide) (by decide)).2.1,
   (mapped_record_moved_to_target.2.2 ["v"] ⟨[["v", "notes", "a.md"]], [["v", "notes"]]⟩
      ⟨"a.md", "notes", "notes/a.md", 5⟩ "Projects" (by decide) (by decide) (by decide)
      (by decide) (by decide) (by decide) (by decide) (by decide)).2.2.1,
   (mapped_record_moved_to_target.2.2 ["v"] ⟨[["v", "notes", "a.md"]], [["v", "notes"]]⟩
      ⟨"a.md", "notes", "notes/a.md", 5⟩ "Projects" (by decide) (by decide) (by decide)
      (by decide) (by decide) (by decide) (by decide) (by decide)).2.2.2⟩
/-- An empty directory has no subdirectories at any depth. -/
theorem dirsOf_of_emptyTree (t : FSTree) (h : emptyTree t = true) : dirsOf t = [] := by
  cases t with
  | node ds files =>
    cases ds with
    | nil => rfl
    | cons d t' rest => exact absurd h (by simp [emptyTree])

mutual
/-- A directory path survives the cleanup sweep exactly when some
directory sat at that path before the sweep and was not both empty in
the pre-sweep tree and visibly pathed: the sweep's decisions are taken
against the pre-sweep snapshot, never against intermediate states. -/
theorem dirsOf_sweep (pfx : List String) (t : FSTree) (p : List String) :
    (∃ s, (p, s) ∈ dirsOf (sweepTree pfx t)) ↔
      ∃ s, (p, s) ∈ dirsOf t ∧ ¬(emptyTree s = true ∧ visiblePath (pfx ++ p) = true) := by
  cases t with
  | node ds files =>
    rw [sweepTree]
    exact dirsOfList_sweep pfx ds p
/-- Listing-level version of `dirsOf_sweep`. -/
theorem dirsOfList_sweep (pfx : List String) (ds : FSList) (p : List String) :
    (∃ s, (p, s) ∈ dirsOfList (sweepList pfx ds)) ↔
      ∃ s, (p, s) ∈ dirsOfList ds ∧ ¬(emptyTree s = true ∧ visiblePath (pfx ++ p) = true) := by
  cases ds with
  | nil => simp [sweepList, dirsOfList]
  | cons d t rest =>
    rw [sweepList]
    by_cases hrem : (emptyTree t && visiblePath (pfx ++ [d])) = true
    · rw [if_pos hrem]
      rw [Bool.and_eq_true] at hrem
      rw [dirsOfList_sweep pfx rest p]
      constructor
      · rintro ⟨s, hs, hc⟩
        exact ⟨s, List.mem_cons_of_mem _ (List.mem_append.mpr (Or.inr hs)), hc⟩
      · rintro ⟨s, hs, hc⟩
        rw [dirsOfList] at hs
        rcases List.mem_cons.mp hs with heq | hs'
        · rw [Prod.mk.injEq] at heq
          obtain ⟨hp, hst⟩ := heq
          subst hp
          subst hst
          exact absurd ⟨hrem.1, hrem.2⟩ hc
        · rcases List.mem_append.mp hs' with hmap | hrest
          · obtain ⟨a, ha, -⟩ := List.mem_map.mp hmap
            rw [dirsOf_of_emptyTree t hrem.1] at ha
            exact absurd ha (List.not_mem_nil _)
          · exact ⟨s, hrest, hc⟩
    · rw [if_neg hrem]
      have hcond : ¬(emptyTree t = true ∧ visiblePath (pfx ++ [d]) = true) := by
        intro hc
        exact hrem (by rw [hc.1, hc.2]; rfl)
      constructor
      · rintro ⟨s, hs⟩
        rw [dirsOfList] at hs
        rcases List.mem_cons.mp hs with heq | hs'
        · rw [Prod.mk.injEq] at heq
          obtain ⟨hp, -⟩ := heq
          subst hp
          exact ⟨t, List.mem_cons_self _ _, hcond⟩
        · rcases List.mem_append.mp hs' with hmap | hrest
          · obtain ⟨a, ha, heq⟩ := List.mem_map.mp hmap
            obtain ⟨q, s'⟩ := a
            dsimp only at heq
            rw [Prod.mk.injEq] at heq
            obtain ⟨hp, -⟩ := heq
            subst hp
            obtain ⟨s2, hs2, hc2⟩ := (dirsOf_sweep (pfx ++ [d]) t q).mp ⟨s', ha⟩
            refine ⟨s2, List.mem_cons_of_mem _ (List.mem_append.mpr (Or.inl
              (List.mem_map.mpr ⟨(q, s2), hs2, rfl⟩))), ?_⟩
            rw [List.append_cons pfx d q]
            exact hc2
          · obtain ⟨s2, hs2, hc2⟩ := (dirsOfList_sweep pfx rest p).mp ⟨s, hrest⟩
            exact ⟨s2, List.mem_cons_of_mem _ (List.mem_append.mpr (Or.inr hs2)), hc2⟩
      · rintro ⟨s, hs, hc⟩
        rw [dirsOfList] at hs
        rcases List.mem_cons.mp hs with heq | hs'
        · rw [Prod.mk.injEq] at heq
          obtain ⟨hp, -⟩ := heq
          subst hp
          exact ⟨_, List.mem_cons_self _ _⟩
        · rcases List.mem_append.mp hs' with hmap | hrest
          · obtain ⟨a, ha, heq⟩ := List.mem_map.mp hmap
            obtain ⟨q, s'⟩ := a
            dsimp only at heq
            rw [Prod.mk.injEq] at heq
            obtain ⟨hp, hseq⟩ := heq
            subst hp
            subst hseq
            have hc' : ¬(emptyTree s' = true ∧ visiblePath (pfx ++ [d] ++ q) = true) := by
              rw [← List.append_cons pfx d q]
              exact hc
            obtain ⟨s2, hs2⟩ := (dirsOf_sweep (pfx ++ [d]) t q).mpr ⟨s', ha, hc'⟩
            exact ⟨s2, List.mem_cons_of_mem _ (List.mem_append.mpr (Or.inl
              (List.mem_map.mpr ⟨(q, s2), hs2, rfl⟩)))⟩
          · obtain ⟨s2, hs2⟩ := (dirsOfList_sweep pfx rest p).mpr ⟨s, hrest, hc⟩
            exact ⟨s2, List.mem_cons_of_mem _ (List.mem_append.mpr (Or.inr hs2))⟩
end

/-- C9 counterexample: in a vault `v` holding `a/b` with both directories
empty of files, the sweep removes `b` but leaves `a`, because `a`'s
listing snapshot still contained `b`; after the sweep, `a` is an empty
directory on a fully visible path that was not removed, contradicting
the claim that every such directory is gone. -/
theorem empty_dir_survives_sweep :
    (["a"], FSTree.node .nil []) ∈ dirsOf (sweepTree ["v"]
      (.node (.cons "a" (.node (.cons "b" (.node .nil []) .nil) []) .nil) []))
    ∧ emptyTree (FSTree.node .nil []) = true
    ∧ visiblePath (["v"] ++ ["a"]) = true :=
  ⟨List.mem_singleton_self _, rfl, rfl⟩

/-- C9 amended: the bottom-up sweep works against the pre-sweep snapshot:
a directory is removed exactly when it was already empty (no files, no
subdirectories) before the sweep and its path has no hidden segment —
directories that become empty only because the sweep removed their
children survive the pass; consequently a hidden-pathed directory is
never removed, and a directory that still contains any subdirectory (for
example a hidden-marker one, making it non-empty) is preserved. -/
theorem sweep_removes_snapshot_empty_dirs (pfx : List String) (t : FSTree)
    (p : List String) :
    ((∃ s, (p, s) ∈ dirsOf (sweepTree pfx t)) ↔
      ∃ s, (p, s) ∈ dirsOf t ∧ ¬(emptyTree s = true ∧ visiblePath (pfx ++ p) = true))
    ∧ (visiblePath (pfx ++ p) = false →
      ((∃ s, (p, s) ∈ dirsOf (sweepTree pfx t)) ↔ ∃ s, (p, s) ∈ dirsOf t))
    ∧ (∀ s, (p, s) ∈ dirsOf t → emptyTree s = false →
      ∃ s2, (p, s2) ∈ dirsOf (sweepTree pfx t)) := by
  refine ⟨dirsOf_sweep pfx t p, ?_, ?_⟩
  · intro hv
    rw [dirsOf_sweep pfx t p]
    constructor
    · rintro ⟨s, hs, -⟩
      exact ⟨s, hs⟩
    · rintro ⟨s, hs⟩
      refine ⟨s, hs, ?_⟩
      rintro ⟨-, hvis⟩
      rw [hv] at hvis
      exact Bool.false_ne_true hvis
  · intro s hs hemp
    apply (dirsOf_sweep pfx t p).mpr
    refine ⟨s, hs, ?_⟩
    rintro ⟨he, -⟩
    rw [hemp] at he
    exact Bool.false_ne_true he

/-- C9 witness: in a vault holding `.obsidian` and `a/.h`, the hidden
directory `.obsidian` survives the sweep, and `a`, non-empty thanks to
its hidden child, survives too. -/
theorem sweep_removes_snapshot_empty_dirs_witness :
    (visiblePath (["v"] ++ [".obsidian"]) = false
      ∧ ((∃ s, ([".obsidian"], s) ∈ dirsOf (sweepTree ["v"]
          (.node (.cons ".obsidian" (.node .nil []) (.cons "a"
            (.node (.cons ".h" (.node .nil []) .nil) []) .nil)) []))) ↔
        ∃ s, ([".obsidian"], s) ∈ dirsOf
          (FSTree.node (.cons ".obsidian" (.node .nil []) (.cons "a"
            (.node (.cons ".h" (.node .nil []) .nil) []) .nil)) [])))
    ∧ ((["a"], FSTree.node (.cons ".h" (.node .nil []) .nil) []) ∈ dirsOf
          (FSTree.node (.cons ".obsidian" (.node .nil []) (.cons "a"
            (.node (.cons ".h" (.node .nil []) .nil) []) .nil)) [])
      ∧ emptyTree (FSTree.node (.cons ".h" (.node .nil []) .nil) []) = false
      ∧ ∃ s2, (["a"], s2) ∈ dirsOf (sweepTree ["v"]
          (.node (.cons ".obsidian" (.node .nil []) (.cons "a"
            (.node (.cons ".h" (.node .nil []) .nil) []) .nil)) []))) :=
  ⟨⟨rfl, (sweep_removes_snapshot_empty_dirs ["v"] _ [".obsidian"]).2.1 rfl⟩,
   by constructor
      · show _ ∈ _
        exact List.mem_cons_of_mem _ (List.mem_cons_self _ _)
      · exact ⟨rfl, (sweep_removes_snapshot_empty_dirs ["v"] _ ["a"]).2.2
          (FSTree.node (.cons ".h" (.node .nil []) .nil) [])
          (List.mem_cons_of_mem _ (List.mem_cons_self _ _)) rfl⟩⟩
mutual
/-- A path occurs in the backup copy exactly when it occurs in the vault
and none of its segments is one of the two ignored names. -/
theorem treePaths_backup (t : FSTree) (p : List String) :
    p ∈ treePaths (backupTree t) ↔
      p ∈ treePaths t ∧ ∀ s ∈ p, ignoredName s = false := by
  cases t with
  | node ds files =>
    rw [backupTree, treePaths, treePaths]
    constructor
    · intro hp
      rcases List.mem_append.mp hp with hf | hd
      · obtain ⟨f, hf', heq⟩ := List.mem_map.mp hf
        obtain ⟨hmem, hig⟩ := List.mem_filter.mp hf'
        subst heq
        refine ⟨List.mem_append.mpr (Or.inl (List.mem_map.mpr ⟨f, hmem, rfl⟩)), ?_⟩
        intro s hs
        rw [List.mem_singleton] at hs
        subst hs
        simpa using hig
      · obtain ⟨hp', hclean⟩ := (pathsList_backup ds p).mp hd
        exact ⟨List.mem_append.mpr (Or.inr hp'), hclean⟩
    · rintro ⟨hp, hclean⟩
      rcases List.mem_append.mp hp with hf | hd
      · obtain ⟨f, hmem, heq⟩ := List.mem_map.mp hf
        subst heq
        refine List.mem_append.mpr (Or.inl (List.mem_map.mpr ⟨f, ?_, rfl⟩))
        refine List.mem_filter.mpr ⟨hmem, ?_⟩
        have := hclean f.1 (List.mem_singleton_self _)
        simpa using this
      · exact List.mem_append.mpr (Or.inr ((pathsList_backup ds p).mpr
          ⟨hd, hclean⟩))
/-- Listing-level version of `treePaths_backup`. -/
theorem pathsList_backup (ds : FSList) (p : List String) :
    p ∈ pathsList (backupList ds) ↔
      p ∈ pathsList ds ∧ ∀ s ∈ p, ignoredName s = false := by
  cases ds with
  | nil => simp [backupList, pathsList]
  | cons d t rest =>
    rw [backupList]
    by_cases hig : ignoredName d = true
    · rw [if_pos hig]
      rw [pathsList_backup rest p]
      constructor
      · rintro ⟨hp, hclean⟩
        exact ⟨List.mem_cons_of_mem _ (List.mem_append.mpr (Or.inr hp)), hclean⟩
      · rintro ⟨hp, hclean⟩
        rw [pathsList] at hp
        rcases List.mem_cons.mp hp with heq | hp'
        · subst heq
          have := hclean d (List.mem_singleton_self _)
          rw [hig] at this
          exact Bool.noConfusion this
        · rcases List.mem_append.mp hp' with hmap | hrest
          · obtain ⟨q, -, heq⟩ := List.mem_map.mp hmap
            subst heq
            have := hclean d (List.mem_cons_self _ _)
            rw [hig] at this
            exact Bool.noConfusion this
          · exact ⟨hrest, hclean⟩
    · rw [if_neg hig]
      rw [Bool.not_eq_true] at hig
      constructor
      · intro hp
        rw [pathsList] at hp
        rcases List.mem_cons.mp hp with heq | hp'
        · subst heq
          refine ⟨List.mem_cons_self _ _, ?_⟩
          intro s hs
          rw [List.mem_singleton] at hs
          subst hs
          exact hig
        · rcases List.mem_append.mp hp' with hmap | hrest
          · obtain ⟨q, hq, heq⟩ := List.mem_map.mp hmap
            subst heq
            obtain ⟨hq', hclean⟩ := (treePaths_backup t q).mp hq
            refine ⟨List.mem_cons_of_mem _ (List.mem_append.mpr (Or.inl
              (List.mem_map.mpr ⟨q, hq', rfl⟩))), ?_⟩
            intro s hs
            rcases List.mem_cons.mp hs with hseq | hs'
            · subst hseq
              exact hig
            · exact hclean s hs'
          · obtain ⟨hp2, hclean⟩ := (pathsList_backup rest p).mp hrest
            exact ⟨List.mem_cons_of_mem _ (List.mem_append.mpr (Or.inr hp2)), hclean⟩
      · rintro ⟨hp, hclean⟩
        rw [pathsList] at hp
        rw [pathsList]
        rcases List.mem_cons.mp hp with heq | hp'
        · subst heq
          exact List.mem_cons_self _ _
        · rcases List.mem_append.mp hp' with hmap | hrest
          · obtain ⟨q, hq, heq⟩ := List.mem_map.mp hmap
            subst heq
            have hq2 := (treePaths_backup t q).mpr
              ⟨hq, fun s hs => hclean s (List.mem_cons_of_mem _ hs)⟩
            exact List.mem_cons_of_mem _ (List.mem_append.mpr (Or.inl
              (List.mem_map.mpr ⟨q, hq2, rfl⟩)))
          · exact List.mem_cons_of_mem _ (List.mem_append.mpr (Or.inr
              ((pathsList_backup rest p).mpr ⟨hrest, hclean⟩)))
end

/-- C10: the backup copy excludes exactly the entries with a `.obsidian`
or `.git` segment somewhere on their path — every other hidden-marker
entry (a `.trash` directory, say) is copied — even though a
hidden-marker entry contributes nothing to the index and is never
removed by the cleanup sweep. -/
theorem backup_excludes_only_obsidian_git (t : FSTree) (p : List String) :
    (p ∈ treePaths (backupTree t) ↔
      p ∈ treePaths t ∧ ∀ s ∈ p, ignoredName s = false)
    ∧ (∀ (n : String) (sub : FSTree) (rest : FSList) (files : List (String × Nat)),
        hiddenName n = true →
        index_walk [] (.node (.cons n sub rest) files)
          = index_walk [] (.node rest files))
    ∧ (∀ (pfx : List String) (n : String) (sub : FSTree) (rest : FSList)
        (files : List (String × Nat)),
        hiddenName n = true →
        sweepTree pfx (.node (.cons n sub rest) files)
          = .node (.cons n (sweepTree (pfx ++ [n]) sub) (sweepList pfx rest)) files) := by
  refine ⟨treePaths_backup t p, ?_, ?_⟩
  · intro n sub rest files h
    rw [index_walk, index_walk, index_walkList, if_pos h, List.nil_append]
  · intro pfx n sub rest files h
    rw [sweepTree, sweepList, if_neg]
    intro hcond
    rw [Bool.and_eq_true] at hcond
    have := hcond.2
    rw [visiblePath, List.all_append] at this
    rw [Bool.and_eq_true] at this
    have h2 := this.2
    simp [h] at h2

/-- C10 witness: a `.trash` directory and its note are present in the
backup copy, while the same directory yields no index record and
survives the cleanup sweep. -/
theorem backup_excludes_only_obsidian_git_witness :
    ([".trash", "x.md"] ∈ treePaths
        (FSTree.node (.cons ".trash" (.node .nil [("x.md", 5)]) .nil) [])
      ∧ (∀ s ∈ [".trash", "x.md"], ignoredName s = false))
    ∧ [".trash", "x.md"] ∈ treePaths (backupTree
        (FSTree.node (.cons ".trash" (.node .nil [("x.md", 5)]) .nil) []))
    ∧ hiddenName ".trash" = true
    ∧ index_walk [] (FSTree.node (.cons ".trash" (.node .nil [("x.md", 5)]) .nil) [])
        = index_walk [] (FSTree.node .nil [])
    ∧ sweepTree ["v"] (FSTree.node (.cons ".trash" (.node .nil [("x.md", 5)]) .nil) [])
        = .node (.cons ".trash" (sweepTree (["v"] ++ [".trash"])
            (.node .nil [("x.md", 5)])) (sweepList ["v"] .nil)) [] :=
  ⟨⟨by decide, by decide⟩,
   (backup_excludes_only_obsidian_git
      (FSTree.node (.cons ".trash" (.node .nil [("x.md", 5)]) .nil) [])
      [".trash", "x.md"]).1.mpr ⟨by decide, by decide⟩,
   rfl,
   (backup_excludes_only_obsidian_git
      (FSTree.node (.cons ".trash" (.node .nil [("x.md", 5)]) .nil) [])
      [".trash", "x.md"]).2.1 ".trash" (.node .nil [("x.md", 5)]) .nil [] rfl,
   (backup_excludes_only_obsidian_git
      (FSTree.node (.cons ".trash" (.node .nil [("x.md", 5)]) .nil) [])
      [".trash", "x.md"]).2.2 ["v"] ".trash" (.node .nil [("x.md", 5)]) .nil [] rfl⟩
mutual
/-- The indexer is the record-packing of the visited triples. -/
theorem index_walk_eq_noteFiles (rel : List String) (t : FSTree) :
    index_walk rel t = (noteFiles rel t).map mkRecord := by
  cases t with
  | node ds files =>
    rw [index_walk, noteFiles, List.map_append, List.map_filterMap]
    congr 1
    · apply List.filterMap_congr
      intro f hf
      split
      · rfl
      · rfl
    · exact index_walkList_eq_noteFilesList rel ds
/-- Listing-level version of `index_walk_eq_noteFiles`. -/
theorem index_walkList_eq_noteFilesList (rel : List String) (ds : FSList) :
    index_walkList rel ds = (noteFilesList rel ds).map mkRecord := by
  cases ds with
  | nil => rfl
  | cons d t rest =>
    rw [index_walkList, noteFilesList, List.map_append]
    congr 1
    · by_cases h : hiddenName d = true
      · rw [if_pos h, if_pos h]
        rfl
      · rw [if_neg h, if_neg h]
        exact index_walk_eq_noteFiles (rel ++ [d]) t
    · exact index_walkList_eq_noteFilesList rel rest
end

mutual
/-- The indexer's triples are exactly the visible note files, each tagged
with its directory path relative to the walk root. -/
theorem mem_noteFiles_iff (pre : List String) (t : FSTree)
    (x : List String × String × Nat) :
    x ∈ noteFiles pre t ↔
      ∃ rel name size, VisibleNote t rel name size ∧ x = (pre ++ rel, name, size) := by
  cases t with
  | node ds files =>
    rw [noteFiles]
    constructor
    · intro hx
      rcases List.mem_append.mp hx with hf | hl
      · obtain ⟨f, hmem, heq⟩ := List.mem_filterMap.mp hf
        by_cases hc : (hiddenName f.1 || !strEndsWith f.1 ".md") = true
        · rw [if_pos hc] at heq
          exact Option.noConfusion heq
        · rw [if_neg hc] at heq
          rw [Option.some.injEq] at heq
          subst heq
          simp only [Bool.or_eq_true, Bool.not_eq_true', not_or,
            Bool.not_eq_true, Bool.not_eq_false] at hc
          exact ⟨[], f.1, f.2, VisibleNote.here ds files f.1 f.2 hmem hc.1 hc.2,
            by rw [List.append_nil]⟩
      · obtain ⟨d, tsub, rel, name, size, hmemd, hhid, hvn, hx⟩ :=
          (mem_noteFilesList_iff pre ds x).mp hl
        exact ⟨d :: rel, name, size,
          VisibleNote.there ds files d tsub rel name size hmemd hhid hvn, hx⟩
    · rintro ⟨rel, name, size, hvn, rfl⟩
      cases hvn with
      | here _ _ _ _ hmem hhid hmd =>
        apply List.mem_append.mpr
        left
        apply List.mem_filterMap.mpr
        refine ⟨(name, size), hmem, ?_⟩
        rw [if_neg (by simp [hhid, hmd])]
        rw [List.append_nil]
      | there _ _ d tsub rel' _ _ hmemd hhid hvn' =>
        apply List.mem_append.mpr
        right
        exact (mem_noteFilesList_iff pre ds _).mpr
          ⟨d, tsub, rel', name, size, hmemd, hhid, hvn', rfl⟩
/-- Listing-level version of `mem_noteFiles_iff`. -/
theorem mem_noteFilesList_iff (pre : List String) (ds : FSList)
    (x : List String × String × Nat) :
    x ∈ noteFilesList pre ds ↔
      ∃ d tsub rel name size, FSList.Mem d tsub ds ∧ hiddenName d = false
        ∧ VisibleNote tsub rel name size ∧ x = (pre ++ d :: rel, name, size) := by
  cases ds with
  | nil =>
    rw [noteFilesList]
    constructor
    · intro hx
      exact absurd hx (List.not_mem_nil x)
    · rintro ⟨d, tsub, rel, name, size, hmemd, -, -, -⟩
      cases hmemd
  | cons d0 t0 rest =>
    rw [noteFilesList]
    constructor
    · intro hx
      rcases List.mem_append.mp hx with hsub | hrest
      · cases hh : hiddenName d0 with
        | true =>
          rw [if_pos hh] at hsub
          exact absurd hsub (List.not_mem_nil x)
        | false =>
          rw [if_neg (by rw [hh]; exact Bool.noConfusion)] at hsub
          obtain ⟨rel, name, size, hvn, hx'⟩ :=
            (mem_noteFiles_iff (pre ++ [d0]) t0 x).mp hsub
          refine ⟨d0, t0, rel, name, size, FSList.Mem.head d0 t0 rest, hh, hvn, ?_⟩
          rw [hx', List.append_cons pre d0 rel]
      · obtain ⟨d, tsub, rel, name, size, hmemd, hhid, hvn, hx'⟩ :=
          (mem_noteFilesList_iff pre rest x).mp hrest
        exact ⟨d, tsub, rel, name, size,
          FSList.Mem.tail d0 t0 d tsub rest hmemd, hhid, hvn, hx'⟩
    · rintro ⟨d, tsub, rel, name, size, hmemd, hhid, hvn, rfl⟩
      cases hmemd with
      | head =>
        apply List.mem_append.mpr
        left
        rw [if_neg (by rw [hhid]; exact Bool.noConfusion)]
        apply (mem_noteFiles_iff _ _ _).mpr
        exact ⟨rel, name, size, hvn, by rw [List.append_cons]⟩
      | tail _ _ _ _ _ hmem' =>
        apply List.mem_append.mpr
        right
        exact (mem_noteFilesList_iff pre rest _).mpr
          ⟨d, tsub, rel, name, size, hmem', hhid, hvn, rfl⟩
end

/-- A listed subtree's name occurs among the listing's names. -/
theorem FSList.Mem.mem_dirNames {d : String} {t : FSTree} {ds : FSList}
    (h : FSList.Mem d t ds) : d ∈ dirNames ds := by
  induction h with
  | head _ _ _ => exact List.mem_cons_self _ _
  | tail _ _ _ _ _ _ ih => exact List.mem_cons_of_mem _ ih

mutual
/-- On a well-formed tree the indexer's triples are duplicate-free:
exactly one triple per visible note file. -/
theorem noteFiles_nodup (pre : List String) (t : FSTree)
    (hwf : WFtree t = true) : (noteFiles pre t).Nodup := by
  cases t with
  | node ds files =>
    rw [WFtree, Bool.and_eq_true, Bool.and_eq_true] at hwf
    obtain ⟨⟨hfn, hdn⟩, hl⟩ := hwf
    rw [decide_eq_true_eq] at hfn hdn
    rw [noteFiles]
    apply List.Nodup.append
    · apply List.Nodup.filterMap
      · intro a a' b hb hb'
        by_cases hc : (hiddenName a.1 || !strEndsWith a.1 ".md") = true
        · rw [if_pos hc] at hb
          exact absurd hb (by simp)
        · rw [if_neg hc] at hb
          by_cases hc' : (hiddenName a'.1 || !strEndsWith a'.1 ".md") = true
          · rw [if_pos hc'] at hb'
            exact absurd hb' (by simp)
          · rw [if_neg hc'] at hb'
            rw [Option.mem_def, Option.some.injEq] at hb hb'
            subst hb
            rw [Prod.mk.injEq, Prod.mk.injEq] at hb'
            obtain ⟨-, h1, h2⟩ := hb'
            exact Prod.ext h1.symm h2.symm
      · exact List.Nodup.of_map Prod.fst hfn
    · exact noteFilesList_nodup pre ds hl hdn
    · rw [List.disjoint_left]
      intro x hx hx'
      obtain ⟨f, -, heq⟩ := List.mem_filterMap.mp hx
      obtain ⟨d, tsub, rel, name, size, -, -, -, hx2⟩ :=
        (mem_noteFilesList_iff pre ds x).mp hx'
      have hx1 : x.1 = pre := by
        by_cases hc : (hiddenName f.1 || !strEndsWith f.1 ".md") = true
        · rw [if_pos hc] at heq
          exact absurd heq (by simp)
        · rw [if_neg hc] at heq
          rw [Option.some.injEq] at heq
          rw [← heq]
      rw [hx2] at hx1
      have hlen := congrArg List.length hx1
      simp at hlen
/-- Listing-level version of `noteFiles_nodup`; the listing's names must
be duplicate-free. -/
theorem noteFilesList_nodup (pre : List String) (ds : FSList)
    (hwf : WFlist ds = true) (hdn : (dirNames ds).Nodup) :
    (noteFilesList pre ds).Nodup := by
  cases ds with
  | nil => exact List.nodup_nil
  | cons d t rest =>
    rw [WFlist, Bool.and_eq_true] at hwf
    rw [dirNames, List.nodup_cons] at hdn
    rw [noteFilesList]
    cases hh : hiddenName d with
    | true =>
      rw [if_pos rfl, List.nil_append]
      exact noteFilesList_nodup pre rest hwf.2 hdn.2
    | false =>
      rw [if_neg (fun h => Bool.noConfusion h)]
      apply List.Nodup.append
      · exact noteFiles_nodup (pre ++ [d]) t hwf.1
      · exact noteFilesList_nodup pre rest hwf.2 hdn.2
      · rw [List.disjoint_left]
        intro x hx hx'
        obtain ⟨rel, name, size, -, hx1⟩ :=
          (mem_noteFiles_iff (pre ++ [d]) t x).mp hx
        obtain ⟨d', tsub, rel', name', size', hmem', -, -, hx2⟩ :=
          (mem_noteFilesList_iff pre rest x).mp hx'
        rw [hx1] at hx2
        rw [Prod.mk.injEq] at hx2
        have hfst := hx2.1
        rw [← List.append_cons pre d rel] at hfst
        have := List.append_cancel_left hfst
        rw [List.cons.injEq] at this
        exact hdn.1 (this.1 ▸ hmem'.mem_dirNames)
end

/-- C8: the indexer emits exactly one FileRecord per note file — a `.md`
file, not hidden, reached through non-hidden directories only — found by
the recursive walk: the index is the record-packing of the visited
triples; a triple occurs for precisely the visible note files; on a
well-formed tree (per-directory names duplicate-free, as on a real
filesystem) the triples are duplicate-free; and each record carries the
filename, the folder relative to the root, the full relative path and
the byte size. -/
theorem indexer_one_record_per_visible_note (t : FSTree) :
    (∀ rel, index_walk rel t = (noteFiles rel t).map mkRecord)
    ∧ (∀ pre x, x ∈ noteFiles pre t ↔
        ∃ rel name size, VisibleNote t rel name size ∧ x = (pre ++ rel, name, size))
    ∧ (WFtree t = true → ∀ pre, (noteFiles pre t).Nodup)
    ∧ (∀ rel name size, mkRecord (rel, name, size)
        = { filename := name, current_folder := strOfRel rel,
            full_relative_path := strOfRel (rel ++ [name]), size := size }) :=
  ⟨fun rel => index_walk_eq_noteFiles rel t,
   fun pre x => mem_noteFiles_iff pre t x,
   fun h pre => noteFiles_nodup pre t h,
   fun _ _ _ => rfl⟩

/-- C8 witness: a two-level vault with a hidden directory, a hidden file
and a non-markdown file is well-formed, indexes to exactly its two
visible notes, and its triple list is duplicate-free. -/
theorem indexer_one_record_per_visible_note_witness :
    WFtree (FSTree.node (.cons "sub" (.node .nil [("b.md", 2), ("c.txt", 3)])
        (.cons ".obsidian" (.node .nil [("d.md", 4)]) .nil)) [("a.md", 1), (".e.md", 9)])
      = true
    ∧ (noteFiles [] (FSTree.node (.cons "sub" (.node .nil [("b.md", 2), ("c.txt", 3)])
        (.cons ".obsidian" (.node .nil [("d.md", 4)]) .nil))
        [("a.md", 1), (".e.md", 9)])).Nodup
    ∧ index_walk [] (FSTree.node (.cons "sub" (.node .nil [("b.md", 2), ("c.txt", 3)])
        (.cons ".obsidian" (.node .nil [("d.md", 4)]) .nil)) [("a.md", 1), (".e.md", 9)])
      = [⟨"a.md", ".", "a.md", 1⟩, ⟨"b.md", "sub", "sub/b.md", 2⟩] :=
  ⟨by decide,
   (indexer_one_record_per_visible_note _).2.2.1 (by decide) [],
   by decide⟩
